import Mathlib

/-!
# Verification of the CardDeck poker program

A shallow embedding of `src/main.rs` (card model, deck generation, dealing,
hand evaluation, `HandRank` ordering and winner resolution), together with
theorems settling the specification claims.

Modelling conventions:
* Rust `Vec<T>` becomes `List T`; `u8` payloads become `Nat`.
* Rust panics become `Option`/explicit outcome constructors (`none` models a
  panic reached at that program point).
* The derived `Ord` instances of Rust (`Rank`, `HandRank`) are embedded as
  explicit comparison functions: discriminant order first, then lexicographic
  comparison of the same-constructor fields, exactly the semantics of Rust's
  `#[derive(PartialOrd, Ord)]`.
* Rust's stable `sort_by` is embedded as a stable insertion sort `sortBy`;
  a stable sort's output is uniquely determined by the comparator and the
  input order, so this is the same list-level function as the source's sort.
-/

/-- Numeric three-way comparison on `Nat`, the embedding of Rust's `Ord` on
integers (used for `u8` payloads, counts and indices). -/
def compareNat (m n : Nat) : Ordering :=
  if m < n then .lt else if n < m then .gt else .eq

theorem compareNat_eq_lt {m n : Nat} : compareNat m n = .lt ↔ m < n := by
  simp only [compareNat]
  split
  · simp [*]
  · split <;> simp <;> omega

theorem compareNat_eq_gt {m n : Nat} : compareNat m n = .gt ↔ n < m := by
  simp only [compareNat]
  split
  · simp; omega
  · split <;> simp <;> omega

theorem compareNat_eq_eq {m n : Nat} : compareNat m n = .eq ↔ m = n := by
  simp only [compareNat]
  split
  · simp; omega
  · split <;> simp <;> omega

theorem compareNat_self (n : Nat) : compareNat n n = .eq := by
  simp [compareNat]

theorem compareNat_swap (m n : Nat) : (compareNat m n).swap = compareNat n m := by
  rcases Nat.lt_trichotomy m n with h | h | h
  · rw [compareNat_eq_lt.mpr h, compareNat_eq_gt.mpr h]; rfl
  · subst h; rw [compareNat_self]; rfl
  · rw [compareNat_eq_gt.mpr h, compareNat_eq_lt.mpr h]; rfl

/-- `(compareNat i j).then x` characterised as a lexicographic step. -/
theorem then_compareNat_eq_lt {i j : Nat} {x : Ordering} :
    (compareNat i j).then x = .lt ↔ i < j ∨ (i = j ∧ x = .lt) := by
  rcases Nat.lt_trichotomy i j with h | h | h
  · rw [compareNat_eq_lt.mpr h]; simp [Ordering.then, h]
  · subst h; rw [compareNat_self]; simp [Ordering.then]
  · rw [compareNat_eq_gt.mpr h]
    constructor
    · intro hh; cases hh
    · rintro (hh | ⟨hh, _⟩) <;> omega

theorem then_compareNat_eq_eq {i j : Nat} {x : Ordering} :
    (compareNat i j).then x = .eq ↔ i = j ∧ x = .eq := by
  rcases Nat.lt_trichotomy i j with h | h | h
  · rw [compareNat_eq_lt.mpr h]
    constructor
    · intro hh; cases hh
    · rintro ⟨hh, _⟩; omega
  · subst h; rw [compareNat_self]; simp [Ordering.then]
  · rw [compareNat_eq_gt.mpr h]
    constructor
    · intro hh; cases hh
    · rintro ⟨hh, _⟩; omega

theorem then_compareNat_eq_gt {i j : Nat} {x : Ordering} :
    (compareNat i j).then x = .gt ↔ j < i ∨ (i = j ∧ x = .gt) := by
  rcases Nat.lt_trichotomy i j with h | h | h
  · rw [compareNat_eq_lt.mpr h]
    constructor
    · intro hh; cases hh
    · rintro (hh | ⟨hh, _⟩) <;> omega
  · subst h; rw [compareNat_self]; simp [Ordering.then]
  · rw [compareNat_eq_gt.mpr h]; simp [Ordering.then, h]

theorem ordering_swap_then (x y : Ordering) :
    (x.then y).swap = x.swap.then y.swap := by
  cases x <;> cases y <;> rfl

/-! ## Card model (from `src/main.rs` lines 6–27) -/

/-- `enum Suit` from the source. -/
inductive Suit where
  | Spades | Hearts | Diamonds | Clubs
deriving DecidableEq, Repr

/-- `enum Rank { Number(u8), Jack, Queen, King, Ace }` from the source. -/
inductive Rank where
  | Number (n : Nat)
  | Jack | Queen | King | Ace
deriving DecidableEq, Repr

/-- `struct Card { suit, rank }` from the source. -/
structure Card where
  suit : Suit
  rank : Rank
deriving DecidableEq, Repr

/-- `fn rank_value` (source lines 142–150). -/
def rank_value : Rank → Nat
  | .Number n => n
  | .Jack => 11
  | .Queen => 12
  | .King => 13
  | .Ace => 14

/-- Discriminant of the `Rank` constructors, in declaration order, as used by
Rust's derived `Ord`. -/
def Rank.ctorIdx : Rank → Nat
  | .Number _ => 0
  | .Jack => 1
  | .Queen => 2
  | .King => 3
  | .Ace => 4

/-- Payload of a `Rank` (0 for the payload-free constructors). -/
def Rank.payload : Rank → Nat
  | .Number n => n
  | _ => 0

/-- The derived `Ord` on `Rank`: discriminant order, with the `Number` payload
compared numerically between two `Number`s. -/
def Rank.cmp (a b : Rank) : Ordering :=
  (compareNat a.ctorIdx b.ctorIdx).then (compareNat a.payload b.payload)

theorem Rank.cmp_refl (a : Rank) : Rank.cmp a a = .eq := by
  simp [Rank.cmp, compareNat_self, Ordering.then]

theorem Rank.cmp_swap_eq (a b : Rank) : (Rank.cmp a b).swap = Rank.cmp b a := by
  simp [Rank.cmp, ordering_swap_then, compareNat_swap]

theorem Rank.cmp_eq_iff {a b : Rank} : Rank.cmp a b = .eq ↔ a = b := by
  constructor
  · intro h
    rw [Rank.cmp, then_compareNat_eq_eq] at h
    obtain ⟨h1, h2⟩ := h
    have h2' := compareNat_eq_eq.mp h2
    cases a <;> cases b <;> simp_all [Rank.ctorIdx, Rank.payload]
  · rintro rfl; exact Rank.cmp_refl a

theorem Rank.cmp_trans_lt {a b c : Rank} :
    Rank.cmp a b = .lt → Rank.cmp b c = .lt → Rank.cmp a c = .lt := by
  intro hab hbc
  rw [Rank.cmp, then_compareNat_eq_lt] at hab hbc ⊢
  rcases hab with h | ⟨h1, h2⟩ <;> rcases hbc with h' | ⟨h1', h2'⟩
  · exact Or.inl (by omega)
  · exact Or.inl (by omega)
  · exact Or.inl (by omega)
  · refine Or.inr ⟨by omega, ?_⟩
    rw [compareNat_eq_lt] at h2 h2' ⊢
    omega

/-! ## Ordering helpers -/

theorem ordering_then_eq_lt {o p : Ordering} :
    o.then p = .lt ↔ o = .lt ∨ (o = .eq ∧ p = .lt) := by
  cases o <;> simp [Ordering.then]

theorem ordering_then_eq_eq {o p : Ordering} :
    o.then p = .eq ↔ o = .eq ∧ p = .eq := by
  cases o <;> simp [Ordering.then]

theorem ordering_then_eq_gt {o p : Ordering} :
    o.then p = .gt ↔ o = .gt ∨ (o = .eq ∧ p = .gt) := by
  cases o <;> simp [Ordering.then]

/-- Derive transitivity of the reflexive-or-below relation `c a b ≠ .gt` from
swap-symmetry, equality soundness and strict transitivity of a comparator. -/
theorem cmp_le_trans_of {α : Type} {c : α → α → Ordering}
    (heq : ∀ {a b}, c a b = .eq → a = b)
    (hlt : ∀ {a b d}, c a b = .lt → c b d = .lt → c a d = .lt)
    {a b d : α} (hab : c a b ≠ .gt) (hbd : c b d ≠ .gt) : c a d ≠ .gt := by
  rcases h1 : c a b with _ | _ | _
  · rcases h2 : c b d with _ | _ | _
    · intro h; rw [hlt h1 h2] at h; cases h
    · have := heq h2; subst this; intro h; rw [h1] at h; cases h
    · exact absurd h2 hbd
  · have := heq h1; subst this; exact hbd
  · exact absurd h1 hab

theorem cmp_total_of {α : Type} {c : α → α → Ordering}
    (hswap : ∀ a b, (c a b).swap = c b a) (a b : α) :
    c a b ≠ .gt ∨ c b a ≠ .gt := by
  rcases h : c a b with _ | _ | _
  · left; intro hh; cases hh
  · left; intro hh; cases hh
  · right; rw [← hswap a b, h]; intro hh; cases hh

/-! ## Stable sorting (the embedding of Rust's `sort_by` / `sort_unstable`)

`insertBy`/`sortBy` is a stable insertion sort driven by a three-way
comparator, ascending with respect to the comparator exactly as Rust's
`slice::sort_by`: an element `x` coming from earlier in the input is placed
before the first `y` with `c x y ≠ Greater`.  A stable comparator sort is
uniquely determined by its comparator and input, so this is the same
function on lists as the source's sort calls. -/

def insertBy {α : Type} (c : α → α → Ordering) (x : α) : List α → List α
  | [] => [x]
  | y :: ys => if c x y = .gt then y :: insertBy c x ys else x :: y :: ys

def sortBy {α : Type} (c : α → α → Ordering) : List α → List α
  | [] => []
  | x :: xs => insertBy c x (sortBy c xs)

theorem insertBy_perm {α : Type} (c : α → α → Ordering) (x : α) (l : List α) :
    List.Perm (insertBy c x l) (x :: l) := by
  induction l with
  | nil => simp [insertBy]
  | cons y ys ih =>
    simp only [insertBy]
    split
    · exact ((ih.cons y).trans (List.Perm.swap x y ys))
    · exact List.Perm.refl _

theorem sortBy_perm {α : Type} (c : α → α → Ordering) (l : List α) :
    List.Perm (sortBy c l) l := by
  induction l with
  | nil => exact List.Perm.refl _
  | cons x xs ih => exact (insertBy_perm c x (sortBy c xs)).trans (ih.cons x)

theorem mem_sortBy {α : Type} {c : α → α → Ordering} {a : α} {l : List α} :
    a ∈ sortBy c l ↔ a ∈ l :=
  (sortBy_perm c l).mem_iff

theorem sortBy_length {α : Type} (c : α → α → Ordering) (l : List α) :
    (sortBy c l).length = l.length :=
  (sortBy_perm c l).length_eq

theorem insertBy_pairwise {α : Type} {c : α → α → Ordering}
    (hswap : ∀ a b, (c a b).swap = c b a)
    (hle_trans : ∀ {a b d}, c a b ≠ .gt → c b d ≠ .gt → c a d ≠ .gt)
    {x : α} {l : List α} (hl : l.Pairwise (fun a b => c a b ≠ .gt)) :
    (insertBy c x l).Pairwise (fun a b => c a b ≠ .gt) := by
  induction l with
  | nil => simp [insertBy]
  | cons y ys ih =>
    rcases List.pairwise_cons.mp hl with ⟨hy, hys⟩
    simp only [insertBy]
    split
    · rename_i hgt
      refine List.pairwise_cons.mpr ⟨?_, ih hys⟩
      intro z hz
      rcases List.mem_cons.mp ((insertBy_perm c x ys).mem_iff.mp hz) with rfl | hz'
      · rw [← hswap z y, hgt]
        decide
      · exact hy z hz'
    · rename_i hng
      refine List.pairwise_cons.mpr ⟨?_, hl⟩
      intro z hz
      rcases List.mem_cons.mp hz with rfl | hz'
      · exact hng
      · exact hle_trans hng (hy z hz')

theorem sortBy_pairwise {α : Type} {c : α → α → Ordering}
    (hswap : ∀ a b, (c a b).swap = c b a)
    (hle_trans : ∀ {a b d}, c a b ≠ .gt → c b d ≠ .gt → c a d ≠ .gt)
    (l : List α) :
    (sortBy c l).Pairwise (fun a b => c a b ≠ .gt) := by
  induction l with
  | nil => simp [sortBy]
  | cons x xs ih => exact insertBy_pairwise hswap hle_trans ih

/-- The head of an ascending comparator sort, computed directly: the first
element of the input that no later element strictly beats. -/
def firstBest {α : Type} (c : α → α → Ordering) : List α → Option α
  | [] => none
  | x :: xs =>
    some (match firstBest c xs with
          | none => x
          | some m => if c x m = .gt then m else x)

theorem firstBest_eq_none {α : Type} {c : α → α → Ordering} {l : List α} :
    firstBest c l = none ↔ l = [] := by
  cases l <;> simp [firstBest]

theorem sortBy_head {α : Type} (c : α → α → Ordering) (l : List α) :
    (sortBy c l).head? = firstBest c l := by
  induction l with
  | nil => rfl
  | cons x xs ih =>
    simp only [sortBy, firstBest]
    rcases h : sortBy c xs with _ | ⟨y, ys⟩
    · rw [h] at ih
      rw [← ih]
      simp [insertBy]
    · rw [h] at ih
      rw [← ih]
      by_cases hxy : c x y = .gt
      · simp [insertBy, hxy]
      · simp [insertBy, hxy]

theorem firstBest_mem {α : Type} {c : α → α → Ordering} {l : List α} {m : α}
    (h : firstBest c l = some m) : m ∈ l := by
  induction l generalizing m with
  | nil => cases h
  | cons x xs ih =>
    have hm := Option.some.inj h
    rcases hx : firstBest c xs with _ | m' <;> rw [hx] at hm <;> dsimp only at hm
    · rw [← hm]
      exact List.mem_cons_self _ _
    · by_cases hgt : c x m' = .gt
      · rw [if_pos hgt] at hm
        rw [hm] at hx
        exact List.mem_cons_of_mem _ (ih hx)
      · rw [if_neg hgt] at hm
        rw [← hm]
        exact List.mem_cons_self _ _

theorem firstBest_le {α : Type} {c : α → α → Ordering}
    (hrefl : ∀ a, c a a = .eq)
    (hswap : ∀ a b, (c a b).swap = c b a)
    (hle_trans : ∀ {a b d}, c a b ≠ .gt → c b d ≠ .gt → c a d ≠ .gt)
    {l : List α} {m : α} (h : firstBest c l = some m) :
    ∀ y ∈ l, c m y ≠ .gt := by
  induction l generalizing m with
  | nil => cases h
  | cons x xs ih =>
    have hm := Option.some.inj h
    rcases hx : firstBest c xs with _ | m' <;> rw [hx] at hm <;> dsimp only at hm
    · intro y hy
      rcases List.mem_cons.mp hy with rfl | hy'
      · rw [← hm, hrefl]; decide
      · rw [firstBest_eq_none.mp hx] at hy'; cases hy'
    · by_cases hgt : c x m' = .gt
      · rw [if_pos hgt] at hm
        rw [hm] at hx hgt
        intro y hy
        rcases List.mem_cons.mp hy with rfl | hy'
        · rw [← hswap _ _, hgt]; decide
        · exact ih hx y hy'
      · rw [if_neg hgt] at hm
        intro y hy
        rcases List.mem_cons.mp hy with rfl | hy'
        · rw [← hm, hrefl]; decide
        · rw [← hm]
          exact hle_trans hgt (ih hx y hy')

/-- Stability at the head: the chosen best element is equal to, or strictly
earlier (in the sense of the pairwise relation `P`) than, every element it
ties with. -/
theorem firstBest_first_of_ties {α : Type} {c : α → α → Ordering}
    {P : α → α → Prop}
    (hswap : ∀ a b, (c a b).swap = c b a)
    {l : List α} {m : α} (hpw : l.Pairwise P) (h : firstBest c l = some m) :
    ∀ y ∈ l, c m y = .eq → m = y ∨ P m y := by
  induction l generalizing m with
  | nil => cases h
  | cons x xs ih =>
    rcases List.pairwise_cons.mp hpw with ⟨hx1, hxs⟩
    have hm := Option.some.inj h
    rcases hx : firstBest c xs with _ | m' <;> rw [hx] at hm <;> dsimp only at hm
    · intro y hy _
      rcases List.mem_cons.mp hy with rfl | hy'
      · exact Or.inl hm.symm
      · rw [firstBest_eq_none.mp hx] at hy'; cases hy'
    · by_cases hgt : c x m' = .gt
      · rw [if_pos hgt] at hm
        rw [hm] at hx hgt
        intro y hy htie
        rcases List.mem_cons.mp hy with rfl | hy'
        · rw [← hswap _ _, hgt] at htie
          exact absurd htie (by decide)
        · exact ih hxs hx y hy' htie
      · rw [if_neg hgt] at hm
        intro y hy _
        rcases List.mem_cons.mp hy with rfl | hy'
        · exact Or.inl hm.symm
        · refine Or.inr ?_
          rw [← hm]
          exact hx1 y hy'

/-! ## Lexicographic comparison of lists (Rust's derived `Ord` on `Vec`) -/

def cmpList {α : Type} (c : α → α → Ordering) : List α → List α → Ordering
  | [], [] => .eq
  | [], _ :: _ => .lt
  | _ :: _, [] => .gt
  | x :: xs, y :: ys => (c x y).then (cmpList c xs ys)

theorem cmpList_self {α : Type} {c : α → α → Ordering}
    (hrefl : ∀ a, c a a = .eq) (l : List α) : cmpList c l l = .eq := by
  induction l with
  | nil => rfl
  | cons x xs ih => simp [cmpList, hrefl, ih, Ordering.then]

theorem cmpList_swap {α : Type} {c : α → α → Ordering}
    (hswap : ∀ a b, (c a b).swap = c b a) (l₁ l₂ : List α) :
    (cmpList c l₁ l₂).swap = cmpList c l₂ l₁ := by
  induction l₁ generalizing l₂ with
  | nil => cases l₂ <;> rfl
  | cons x xs ih =>
    cases l₂ with
    | nil => rfl
    | cons y ys => simp [cmpList, ordering_swap_then, hswap, ih]

theorem cmpList_eq_eq {α : Type} {c : α → α → Ordering}
    (heq : ∀ {a b : α}, c a b = .eq → a = b)
    {l₁ l₂ : List α} (h : cmpList c l₁ l₂ = .eq) : l₁ = l₂ := by
  induction l₁ generalizing l₂ with
  | nil => cases l₂ with
    | nil => rfl
    | cons y ys => cases h
  | cons x xs ih =>
    cases l₂ with
    | nil => cases h
    | cons y ys =>
      rw [cmpList, ordering_then_eq_eq] at h
      rw [heq h.1, ih h.2]

theorem cmpList_lt_trans {α : Type} {c : α → α → Ordering}
    (heq : ∀ {a b : α}, c a b = .eq → a = b)
    (hlt : ∀ {a b d : α}, c a b = .lt → c b d = .lt → c a d = .lt)
    {l₁ l₂ l₃ : List α} (h12 : cmpList c l₁ l₂ = .lt)
    (h23 : cmpList c l₂ l₃ = .lt) : cmpList c l₁ l₃ = .lt := by
  induction l₁ generalizing l₂ l₃ with
  | nil =>
    cases l₂ with
    | nil => exact h23
    | cons y ys =>
      cases l₃ with
      | nil => cases h23
      | cons z zs => rfl
  | cons x xs ih =>
    cases l₂ with
    | nil => cases h12
    | cons y ys =>
      cases l₃ with
      | nil => cases h23
      | cons z zs =>
        rw [cmpList, ordering_then_eq_lt] at h12 h23 ⊢
        rcases h12 with hxy | ⟨hxy, hrest⟩ <;> rcases h23 with hyz | ⟨hyz, hrest'⟩
        · exact Or.inl (hlt hxy hyz)
        · obtain rfl := heq hyz
          exact Or.inl hxy
        · obtain rfl := heq hxy
          exact Or.inl hyz
        · have e1 := heq hxy
          subst e1
          have e2 := heq hyz
          subst e2
          exact Or.inr ⟨hxy, ih hrest hrest'⟩

/-- If two comparators agree on the elements of the lists, the lexicographic
comparisons agree. -/
theorem cmpList_congr {α : Type} {c c' : α → α → Ordering}
    {l₁ l₂ : List α} (h : ∀ a ∈ l₁, ∀ b ∈ l₂, c a b = c' a b) :
    cmpList c l₁ l₂ = cmpList c' l₁ l₂ := by
  induction l₁ generalizing l₂ with
  | nil => cases l₂ <;> rfl
  | cons x xs ih =>
    cases l₂ with
    | nil => rfl
    | cons y ys =>
      rw [cmpList, cmpList, h x (List.mem_cons_self _ _) y (List.mem_cons_self _ _),
        ih fun a ha b hb => h a (List.mem_cons_of_mem _ ha) b (List.mem_cons_of_mem _ hb)]

/-! ## `Vec::dedup` (removal of consecutive duplicates, source line 116) -/

def dedupAdj {α : Type} [DecidableEq α] : List α → List α
  | [] => []
  | [x] => [x]
  | x :: y :: rest =>
    if x = y then dedupAdj (y :: rest) else x :: dedupAdj (y :: rest)

theorem mem_dedupAdj {α : Type} [DecidableEq α] {a : α} {l : List α} :
    a ∈ dedupAdj l ↔ a ∈ l := by
  induction l with
  | nil => simp [dedupAdj]
  | cons x xs ih =>
    cases xs with
    | nil => simp [dedupAdj]
    | cons y ys =>
      simp only [dedupAdj]
      split
      · rename_i hxy
        subst hxy
        rw [ih]
        constructor
        · exact List.mem_cons_of_mem _
        · intro h
          rcases List.mem_cons.mp h with rfl | h'
          · exact List.mem_cons_self _ _
          · exact h'
      · simp only [List.mem_cons, ih]

theorem dedupAdj_length_le {α : Type} [DecidableEq α] (l : List α) :
    (dedupAdj l).length ≤ l.length := by
  induction l with
  | nil => simp [dedupAdj]
  | cons x xs ih =>
    cases xs with
    | nil => simp [dedupAdj]
    | cons y ys =>
      simp only [dedupAdj]
      split
      · simp only [List.length_cons] at ih ⊢
        omega
      · simp only [List.length_cons] at ih ⊢
        omega

theorem dedupAdj_pairwise_lt {l : List Nat}
    (h : l.Pairwise (· ≤ ·)) : (dedupAdj l).Pairwise (· < ·) := by
  induction l with
  | nil => simp [dedupAdj]
  | cons x xs ih =>
    rcases List.pairwise_cons.mp h with ⟨hx, hxs⟩
    cases xs with
    | nil => simp [dedupAdj]
    | cons y ys =>
      simp only [dedupAdj]
      split
      · exact ih hxs
      · rename_i hxy
        refine List.pairwise_cons.mpr ⟨?_, ih hxs⟩
        intro z hz
        have hzmem : z ∈ y :: ys := mem_dedupAdj.mp hz
        rcases List.pairwise_cons.mp hxs with ⟨hy, _⟩
        rcases List.mem_cons.mp hzmem with rfl | hz'
        · have h1 := hx z (List.mem_cons_self _ _)
          have h3 : x ≠ z := hxy
          omega
        · have h1 := hx y (List.mem_cons_self _ _)
          have h2 := hy z hz'
          have h3 : x ≠ y := hxy
          omega

theorem dedupAdj_of_nodup {α : Type} [DecidableEq α] {l : List α}
    (h : l.Nodup) : dedupAdj l = l := by
  induction l with
  | nil => rfl
  | cons x xs ih =>
    rcases List.pairwise_cons.mp h with ⟨hx, hxs⟩
    cases xs with
    | nil => rfl
    | cons y ys =>
      simp only [dedupAdj]
      rw [if_neg (hx y (List.mem_cons_self _ _)), ih hxs]

theorem dedupAdj_length_eq_nodup {l : List Nat}
    (hs : l.Pairwise (· ≤ ·)) (h : (dedupAdj l).length = l.length) :
    l.Nodup := by
  induction l with
  | nil => simp
  | cons x xs ih =>
    rcases List.pairwise_cons.mp hs with ⟨hx, hxs⟩
    cases xs with
    | nil => simp
    | cons y ys =>
      simp only [dedupAdj] at h
      split at h
      · exfalso
        have := dedupAdj_length_le (y :: ys)
        simp only [List.length_cons] at h this
        omega
      · rename_i hxy
        simp only [List.length_cons] at h
        have hnd : (y :: ys).Nodup := ih hxs (by simpa using h)
        refine List.nodup_cons.mpr ⟨?_, hnd⟩
        intro hmem
        rcases List.pairwise_cons.mp hxs with ⟨hy, _⟩
        rcases List.mem_cons.mp hmem with rfl | h'
        · exact hxy rfl
        · have h1 := hx y (List.mem_cons_self _ _)
          have h2 := hy x h'
          have h3 := hx x (List.mem_cons_of_mem _ h')
          exact hxy (by omega)

/-! ## `windows(5)` straight check (source line 117) -/

/-- `nums.windows(5).any(|w| w[4] == w[0] + 4)` on a list of numbers. -/
def win5 : List Nat → Bool
  | a :: b :: cc :: d :: e :: rest =>
    (e == a + 4) || win5 (b :: cc :: d :: e :: rest)
  | _ => false

theorem win5_length {l : List Nat} (h : win5 l = true) : 5 ≤ l.length := by
  match l, h with
  | a :: b :: cc :: d :: e :: rest, _ => simp only [List.length_cons]; omega

/-! ## `enumerate` (indices attached to the elements of a list) -/

def enumF {α : Type} : Nat → List α → List (Nat × α)
  | _, [] => []
  | i, x :: xs => (i, x) :: enumF (i + 1) xs

theorem mem_enumF {α : Type} {k : Nat} {l : List α} {i : Nat} {a : α} :
    (i, a) ∈ enumF k l ↔ k ≤ i ∧ i - k < l.length ∧ l[i - k]? = some a := by
  induction l generalizing k with
  | nil => simp [enumF]
  | cons x xs ih =>
    simp only [enumF, List.mem_cons, ih]
    constructor
    · rintro (h | ⟨h1, h2, h3⟩)
      · simp only [Prod.mk.injEq] at h
        obtain ⟨rfl, rfl⟩ := h
        simp
      · refine ⟨by omega, by simp only [List.length_cons]; omega, ?_⟩
        have he : i - k = (i - (k + 1)) + 1 := by omega
        rw [he]
        simpa using h3
    · rintro ⟨h1, h2, h3⟩
      rcases Nat.eq_or_lt_of_le h1 with rfl | hlt
      · left
        simp only [Nat.sub_self, List.getElem?_cons_zero, Option.some.injEq] at h3
        rw [h3]
      · right
        refine ⟨by omega, ?_, ?_⟩
        · simp only [List.length_cons] at h2
          omega
        · have he : i - k = (i - (k + 1)) + 1 := by omega
          rw [he] at h3
          simpa using h3

theorem enumF_pairwise_idx {α : Type} (k : Nat) (l : List α) :
    (enumF k l).Pairwise (fun a b => a.1 < b.1) := by
  induction l generalizing k with
  | nil => simp [enumF]
  | cons x xs ih =>
    refine List.pairwise_cons.mpr ⟨?_, ih (k + 1)⟩
    rintro ⟨j, b⟩ hq
    have := (mem_enumF.mp hq).1
    simp only
    omega

theorem enumF_length {α : Type} (k : Nat) (l : List α) :
    (enumF k l).length = l.length := by
  induction l generalizing k with
  | nil => rfl
  | cons x xs ih => simp [enumF, ih]

/-! ## `HandRank` (source lines 92–104) and its derived `Ord` -/

/-- `enum HandRank` from the source, in declaration order. -/
inductive HandRank where
  | HighCard (ranks : List Rank)
  | OnePair (r : Rank)
  | TwoPair (hi lo : Rank)
  | ThreeOfAKind (r : Rank)
  | Straight (hi : Rank)
  | Flush (ranks : List Rank)
  | FullHouse (triple pair : Rank)
  | FourOfAKind (r : Rank)
  | StraightFlush (hi : Rank)
  | RoyalFlush
deriving DecidableEq, Repr

/-- Discriminant of the `HandRank` constructors in declaration order: the
category ordinal used by Rust's derived `Ord` (worst first). -/
def HandRank.ctorIdx : HandRank → Nat
  | .HighCard _ => 0
  | .OnePair _ => 1
  | .TwoPair _ _ => 2
  | .ThreeOfAKind _ => 3
  | .Straight _ => 4
  | .Flush _ => 5
  | .FullHouse _ _ => 6
  | .FourOfAKind _ => 7
  | .StraightFlush _ => 8
  | .RoyalFlush => 9

/-- The payload ranks of a `HandRank`, as the list of fields in declaration
order (the `Vec` payloads of `HighCard`/`Flush` contribute their elements). -/
def HandRank.hpay : HandRank → List Rank
  | .HighCard l => l
  | .OnePair r => [r]
  | .TwoPair a b => [a, b]
  | .ThreeOfAKind r => [r]
  | .Straight r => [r]
  | .Flush l => l
  | .FullHouse a b => [a, b]
  | .FourOfAKind r => [r]
  | .StraightFlush r => [r]
  | .RoyalFlush => []

/-- The derived `Ord` on `HandRank`: discriminants first; between two values
of the same constructor the fields are compared lexicographically, which on
the field lists above is exactly `cmpList Rank.cmp` (Rust compares `Vec`
fields lexicographically as well, so a single list comparison covers every
constructor). -/
def HandRank.cmp (a b : HandRank) : Ordering :=
  (compareNat a.ctorIdx b.ctorIdx).then (cmpList Rank.cmp a.hpay b.hpay)

theorem HandRank.cmp_self (a : HandRank) : HandRank.cmp a a = .eq := by
  simp [HandRank.cmp, compareNat_self, Ordering.then,
    cmpList_self Rank.cmp_refl]

theorem HandRank.cmp_swap (a b : HandRank) :
    (HandRank.cmp a b).swap = HandRank.cmp b a := by
  simp [HandRank.cmp, ordering_swap_then, compareNat_swap,
    cmpList_swap Rank.cmp_swap_eq]

theorem HandRank.ctorIdx_hpay_inj {a b : HandRank}
    (h1 : a.ctorIdx = b.ctorIdx) (h2 : a.hpay = b.hpay) : a = b := by
  cases a <;> cases b <;> simp_all [HandRank.ctorIdx, HandRank.hpay]

theorem HandRank.cmp_eq_eq {a b : HandRank} :
    HandRank.cmp a b = .eq ↔ a = b := by
  constructor
  · intro h
    rw [HandRank.cmp, then_compareNat_eq_eq] at h
    exact HandRank.ctorIdx_hpay_inj h.1
      (cmpList_eq_eq (fun hab => Rank.cmp_eq_iff.mp hab) h.2)
  · rintro rfl
    exact HandRank.cmp_self a

theorem HandRank.cmp_lt_trans {a b d : HandRank} :
    HandRank.cmp a b = .lt → HandRank.cmp b d = .lt → HandRank.cmp a d = .lt := by
  intro hab hbd
  rw [HandRank.cmp, then_compareNat_eq_lt] at hab hbd ⊢
  rcases hab with h | ⟨h1, h2⟩ <;> rcases hbd with h' | ⟨h1', h2'⟩
  · exact Or.inl (by omega)
  · exact Or.inl (by omega)
  · exact Or.inl (by omega)
  · refine Or.inr ⟨by omega, ?_⟩
    exact cmpList_lt_trans (fun hab => Rank.cmp_eq_iff.mp hab)
      (fun hxy hyz => Rank.cmp_trans_lt hxy hyz) h2 h2'

theorem HandRank.cmp_le_trans {a b d : HandRank}
    (hab : HandRank.cmp a b ≠ .gt) (hbd : HandRank.cmp b d ≠ .gt) :
    HandRank.cmp a d ≠ .gt :=
  cmp_le_trans_of (fun h => HandRank.cmp_eq_eq.mp h)
    (fun h h' => HandRank.cmp_lt_trans h h') hab hbd

/-! ## The concrete comparators appearing in the source's sort calls -/

/-- `ranks.sort_by(|a, b| b.cmp(a))` (source line 110): descending by the
derived `Ord` on `Rank`. -/
def rankDescCmp (a b : Rank) : Ordering := Rank.cmp b a

/-- `count_vec.sort_by(|a, b| b.1.cmp(&a.1).then_with(|| b.0.cmp(a.0)))`
(source line 126): count descending, then rank descending. -/
def cvCmp (a b : Rank × Nat) : Ordering :=
  (compareNat b.2 a.2).then (Rank.cmp b.1 a.1)

/-- `ranked_hands.sort_by(|a, b| b.1.cmp(&a.1))` (source line 159):
descending by the derived `Ord` on `HandRank`. -/
def dwCmp (a b : Nat × HandRank) : Ordering := HandRank.cmp b.2 a.2

theorem rankDescCmp_self (a : Rank) : rankDescCmp a a = .eq := Rank.cmp_refl a

theorem rankDescCmp_swap (a b : Rank) :
    (rankDescCmp a b).swap = rankDescCmp b a := Rank.cmp_swap_eq b a

theorem rankDescCmp_eq_eq {a b : Rank} (h : rankDescCmp a b = .eq) : a = b :=
  (Rank.cmp_eq_iff.mp h).symm

theorem rankDescCmp_lt_trans {a b d : Rank}
    (hab : rankDescCmp a b = .lt) (hbd : rankDescCmp b d = .lt) :
    rankDescCmp a d = .lt := Rank.cmp_trans_lt hbd hab

theorem rankDescCmp_le_trans {a b d : Rank}
    (hab : rankDescCmp a b ≠ .gt) (hbd : rankDescCmp b d ≠ .gt) :
    rankDescCmp a d ≠ .gt :=
  cmp_le_trans_of (fun h => rankDescCmp_eq_eq h)
    (fun h h' => rankDescCmp_lt_trans h h') hab hbd

theorem dwCmp_self (a : Nat × HandRank) : dwCmp a a = .eq :=
  HandRank.cmp_self a.2

theorem dwCmp_swap (a b : Nat × HandRank) : (dwCmp a b).swap = dwCmp b a :=
  HandRank.cmp_swap b.2 a.2

theorem dwCmp_le_trans {a b d : Nat × HandRank}
    (hab : dwCmp a b ≠ .gt) (hbd : dwCmp b d ≠ .gt) : dwCmp a d ≠ .gt :=
  HandRank.cmp_le_trans hbd hab

theorem compareNat_le_trans {a b d : Nat}
    (hab : compareNat a b ≠ .gt) (hbd : compareNat b d ≠ .gt) :
    compareNat a d ≠ .gt := by
  intro h
  rw [compareNat_eq_gt] at h
  have h1 : ¬ b < a := fun hc => hab (compareNat_eq_gt.mpr hc)
  have h2 : ¬ d < b := fun hc => hbd (compareNat_eq_gt.mpr hc)
  omega

/-! ## Hand evaluation (`evaluate_hand`, source lines 106–140) -/

/-- Line 107: the hand's ranks in hand order. -/
def handRanks (hand : List Card) : List Rank := hand.map Card.rank

/-- Line 108: the hand's suits in hand order. -/
def suitsOf (hand : List Card) : List Suit := hand.map Card.suit

/-- Line 110: `ranks.sort_by(|a, b| b.cmp(a))` — ranks sorted descending by
the derived `Ord`. -/
def ranksDesc (hand : List Card) : List Rank :=
  sortBy rankDescCmp (handRanks hand)

/-- Line 111: `suits.iter().all(|s| s == &suits[0])`.  On an empty list Rust's
`all` returns `true` without ever evaluating `suits[0]`. -/
def suitsAllEqFirst : List Suit → Bool
  | [] => true
  | s0 :: rest => (s0 :: rest).all (fun s => decide (s = s0))

def is_flush (hand : List Card) : Bool := suitsAllEqFirst (suitsOf hand)

/-- Lines 113–115: the rank values of the (sorted) ranks, sorted ascending
(`sort_unstable` on `u8`; on a totally ordered carrier every sort produces
the same list). -/
def numsAsc (hand : List Card) : List Nat :=
  sortBy compareNat ((ranksDesc hand).map rank_value)

/-- Line 116: `nums.dedup()` — consecutive duplicates removed; on the sorted
list this leaves the distinct values in ascending order. -/
def distinctNums (hand : List Card) : List Nat := dedupAdj (numsAsc hand)

/-- Lines 113–118: the straight test. -/
def is_straight (hand : List Card) : Bool :=
  win5 (distinctNums hand) || decide (distinctNums hand = [2, 3, 4, 5, 14])

/-- Lines 120–126: the frequency map and the `(rank, count)` vector sorted by
count descending then rank descending.  The `HashMap` iterates its distinct
keys in an unspecified order; since the comparator is total and two entries
never agree on both count and (distinct) rank, the sorted result is the same
for every iteration order, so the entries are enumerated here as the distinct
ranks in first-appearance order of the sorted rank list. -/
def countVec (hand : List Card) : List (Rank × Nat) :=
  sortBy cvCmp
    ((dedupAdj (ranksDesc hand)).map (fun r => (r, (ranksDesc hand).count r)))

/-- Lines 133–138 of the match: the count-pattern arms after the two guard
arms, in source order. -/
def classifyPairs (isF isS : Bool) (ranks : List Rank)
    (cv : List (Rank × Nat)) : Option HandRank :=
  match cv with
  | (r3, 3) :: _ => some (.ThreeOfAKind r3)
  | (ra, 2) :: (rb, 2) :: _ => some (.TwoPair ra rb)
  | (r2, 2) :: _ => some (.OnePair r2)
  | _ =>
    if isF then some (.Flush ranks)
    else if isS then (ranks.head?).map .Straight
    else some (.HighCard ranks)

/-- Lines 131–138 of the match: the arms after the two exact two-entry
patterns, in source order. -/
def classifyRest (isF isS : Bool) (ranks : List Rank)
    (cv : List (Rank × Nat)) : Option HandRank :=
  if isF && isS && decide (Rank.Ace ∈ ranks) then some .RoyalFlush
  else if isF && isS then (ranks.head?).map .StraightFlush
  else classifyPairs isF isS ranks cv

/-- Lines 128–139: the classification match on `count_vec.as_slice()`, with
the guard arms interleaved exactly as in the source.  Indexing `ranks[0]`
is modelled by `ranks.head?`; `none` models the panic. -/
def classify (isF isS : Bool) (ranks : List Rank)
    (cv : List (Rank × Nat)) : Option HandRank :=
  match cv with
  | [(r4, 4), (_, 1)] => some (.FourOfAKind r4)
  | [(r3, 3), (r2, 2)] => some (.FullHouse r3 r2)
  | _ => classifyRest isF isS ranks cv

/-- `fn evaluate_hand` (source lines 106–140), with `none` modelling the
panics of the out-of-bounds indexings (never reached on nonempty hands). -/
def evaluate_hand (hand : List Card) : Option HandRank :=
  classify (is_flush hand) (is_straight hand) (ranksDesc hand) (countVec hand)

/-! ## Deck generation and dealing (source lines 29–50 and 71–90) -/

/-- One suit's thirteen cards in generation order (`for n in 2..=10` then
Jack, Queen, King, Ace). -/
def suitRun (s : Suit) : List Card :=
  ((List.range 9).map (fun k => { suit := s, rank := Rank.Number (k + 2) })) ++
    [⟨s, .Jack⟩, ⟨s, .Queen⟩, ⟨s, .King⟩, ⟨s, .Ace⟩]

/-- `fn generate_deck` (source lines 29–50). -/
def generate_deck : List Card :=
  suitRun .Spades ++ suitRun .Hearts ++ suitRun .Diamonds ++ suitRun .Clubs

/-- Outcome of `deal_hands`.  `insufficient` models the explicit
`panic!("Not enough cards in deck! Requested {} but only {} available.")`
with its two reported numbers, plus the deck as it stands when the panic
fires; `popFailed` models the `deck.pop().unwrap()` panic (unreachable). -/
inductive DealResult where
  | insufficient (requested available : Nat) (deck : List Card)
  | popFailed
  | ok (hands : List (List Card)) (deck : List Card)
deriving DecidableEq, Repr

/-- `Vec::pop`: removes and returns the last element. -/
def popLast (l : List Card) : Option (Card × List Card) :=
  match l.reverse with
  | [] => none
  | c :: rest => some (c, rest.reverse)

/-- `hands[k].push(c)` (the index is always in bounds when it is `i % nh`
with `nh = hands.len()`, so out-of-range is modelled as a no-op). -/
def pushAt : List (List Card) → Nat → Card → List (List Card)
  | [], _, _ => []
  | h :: t, 0, cr => (h ++ [cr]) :: t
  | h :: t, k + 1, cr => h :: pushAt t k cr

/-- The `for i in 0..total_needed` loop of lines 84–87: `i` counts up while
`steps` counts the remaining iterations. -/
def dealLoop (nh : Nat) : Nat → Nat → List Card → List (List Card) →
    Option (List (List Card) × List Card)
  | _, 0, deck, hands => some (hands, deck)
  | i, steps + 1, deck, hands =>
    match popLast deck with
    | none => none
    | some (cr, deck') => dealLoop nh (i + 1) steps deck' (pushAt hands (i % nh) cr)

/-- `fn deal_hands` (source lines 71–90).  The shuffle is a parameter (the
source uses `thread_rng`); it is only consulted after the availability
guard passes. -/
def deal_hands (shuffle : List Card → List Card) (deck : List Card)
    (cards_per_hand num_hands : Nat) : DealResult :=
  let total := cards_per_hand * num_hands
  if total > deck.length then .insufficient total deck.length deck
  else
    match dealLoop num_hands 0 total (shuffle deck) (List.replicate num_hands []) with
    | none => .popFailed
    | some (hands, deck') => .ok hands deck'

/-! ## Winner resolution (`determine_winner`, source lines 152–161) -/

/-- Lines 153–157: evaluate every (index, hand) pair; a panic inside any
evaluation propagates. -/
def evalAll : List (Nat × List Card) → Option (List (Nat × HandRank))
  | [] => some []
  | (i, h) :: rest =>
    match evaluate_hand h, evalAll rest with
    | some r, some rs => some ((i, r) :: rs)
    | _, _ => none

/-- `fn determine_winner` (source lines 152–161): sort the ranked pairs
descending by `HandRank` (stable), then take `ranked_hands[0].0`; `none`
models the index panic on an empty list. -/
def determine_winner (hands : List (List Card)) : Option Nat :=
  match evalAll (enumF 0 hands) with
  | none => none
  | some ranked =>
    match sortBy dwCmp ranked with
    | [] => none
    | m :: _ => some m.1

/-! ## Totality of evaluation on nonempty hands -/

theorem ranksDesc_length (hand : List Card) :
    (ranksDesc hand).length = hand.length := by
  rw [ranksDesc, sortBy_length, handRanks, List.length_map]

theorem ranksDesc_perm (hand : List Card) :
    List.Perm (ranksDesc hand) (handRanks hand) :=
  sortBy_perm rankDescCmp (handRanks hand)

theorem classify_isSome (isF isS : Bool) {ranks : List Rank}
    (h : ranks ≠ []) (cv : List (Rank × Nat)) :
    ∃ r, classify isF isS ranks cv = some r := by
  obtain ⟨r0, rs, rfl⟩ : ∃ r0 rs, ranks = r0 :: rs := by
    cases ranks with
    | nil => exact absurd rfl h
    | cons a l => exact ⟨a, l, rfl⟩
  unfold classify
  split
  · exact ⟨_, rfl⟩
  · exact ⟨_, rfl⟩
  unfold classifyRest
  split
  · exact ⟨_, rfl⟩
  split
  · exact ⟨_, rfl⟩
  unfold classifyPairs
  split
  · exact ⟨_, rfl⟩
  · exact ⟨_, rfl⟩
  · exact ⟨_, rfl⟩
  split
  · exact ⟨_, rfl⟩
  split
  · exact ⟨_, rfl⟩
  · exact ⟨_, rfl⟩

theorem evaluate_total {hand : List Card} (h : hand ≠ []) :
    ∃ r, evaluate_hand hand = some r := by
  have hlen : (ranksDesc hand).length = hand.length := ranksDesc_length hand
  have hne : ranksDesc hand ≠ [] := by
    intro hnil
    rw [hnil] at hlen
    exact h (List.length_eq_zero.mp hlen.symm)
  exact classify_isSome _ _ hne _

/-! ## Permutation invariance of evaluation -/

theorem sortBy_eq_of_perm {α : Type} {c : α → α → Ordering}
    (hswap : ∀ a b, (c a b).swap = c b a)
    (heq : ∀ {a b : α}, c a b = .eq → a = b)
    (hle_trans : ∀ {a b d : α}, c a b ≠ .gt → c b d ≠ .gt → c a d ≠ .gt)
    {l l' : List α} (hp : List.Perm l l') : sortBy c l = sortBy c l' := by
  have hs1 := sortBy_pairwise hswap (fun hab hbd => hle_trans hab hbd) l
  have hs2 := sortBy_pairwise hswap (fun hab hbd => hle_trans hab hbd) l'
  have hperm : List.Perm (sortBy c l) (sortBy c l') :=
    (sortBy_perm c l).trans (hp.trans (sortBy_perm c l').symm)
  haveI : IsAntisymm α (fun a b => c a b ≠ .gt) := by
    constructor
    intro a b hab hba
    rcases hh : c a b with _ | _ | _
    · exfalso
      apply hba
      rw [← hswap a b, hh]
      rfl
    · exact heq hh
    · exact absurd hh hab
  exact List.eq_of_perm_of_sorted hperm hs1 hs2

theorem suitsAllEqFirst_iff {l : List Suit} :
    suitsAllEqFirst l = true ↔ ∀ s ∈ l, ∀ t ∈ l, s = t := by
  cases l with
  | nil => simp [suitsAllEqFirst]
  | cons s0 rest =>
    simp only [suitsAllEqFirst, List.all_eq_true, decide_eq_true_eq]
    constructor
    · intro h s hs t ht
      rw [h s hs, h t ht]
    · intro h s hs
      exact h s hs s0 (List.mem_cons_self _ _)

theorem is_flush_of_perm {h h' : List Card} (hp : List.Perm h h') :
    is_flush h = is_flush h' := by
  have hmem : ∀ s, s ∈ suitsOf h ↔ s ∈ suitsOf h' := fun s =>
    (hp.map Card.suit).mem_iff
  rcases hb : is_flush h' with _ | _
  · rcases hb2 : is_flush h with _ | _
    · rfl
    · exfalso
      rw [is_flush] at hb hb2
      have := suitsAllEqFirst_iff.mp hb2
      have hcontra : suitsAllEqFirst (suitsOf h') = true :=
        suitsAllEqFirst_iff.mpr fun s hs t ht =>
          this s ((hmem s).mpr hs) t ((hmem t).mpr ht)
      rw [hb] at hcontra
      cases hcontra
  · rw [is_flush] at hb ⊢
    have := suitsAllEqFirst_iff.mp hb
    exact suitsAllEqFirst_iff.mpr fun s hs t ht =>
      this s ((hmem s).mp hs) t ((hmem t).mp ht)

theorem ranksDesc_of_perm {h h' : List Card} (hp : List.Perm h h') :
    ranksDesc h = ranksDesc h' :=
  sortBy_eq_of_perm rankDescCmp_swap (fun hab => rankDescCmp_eq_eq hab)
    (fun hab hbd => rankDescCmp_le_trans hab hbd) (hp.map Card.rank)

theorem evaluate_perm {h h' : List Card} (hp : List.Perm h h') :
    evaluate_hand h = evaluate_hand h' := by
  have hr : ranksDesc h = ranksDesc h' := ranksDesc_of_perm hp
  have hf : is_flush h = is_flush h' := is_flush_of_perm hp
  rw [evaluate_hand, evaluate_hand, hf, hr, is_straight, is_straight,
    distinctNums, distinctNums, numsAsc, numsAsc, hr, countVec, countVec, hr]

/-! ## The straight test characterised -/

/-- The numeric rank values of a hand's cards, in hand order. -/
def handVals (hand : List Card) : List Nat := (handRanks hand).map rank_value

theorem numsAsc_pairwise_le (hand : List Card) :
    (numsAsc hand).Pairwise (· ≤ ·) := by
  have := sortBy_pairwise compareNat_swap
    (fun hab hbd => compareNat_le_trans hab hbd)
    ((ranksDesc hand).map rank_value)
  refine this.imp ?_
  intro a b hab
  rw [Ne, compareNat_eq_gt] at hab
  omega

theorem distinctNums_pairwise_lt (hand : List Card) :
    (distinctNums hand).Pairwise (· < ·) :=
  dedupAdj_pairwise_lt (numsAsc_pairwise_le hand)

theorem mem_distinctNums {hand : List Card} {v : Nat} :
    v ∈ distinctNums hand ↔ v ∈ handVals hand := by
  rw [distinctNums, mem_dedupAdj, numsAsc, mem_sortBy, handVals]
  exact ((ranksDesc_perm hand).map rank_value).mem_iff

theorem numsAsc_length (hand : List Card) :
    (numsAsc hand).length = hand.length := by
  rw [numsAsc, sortBy_length, List.length_map, ranksDesc_length]

theorem distinctNums_length_le (hand : List Card) :
    (distinctNums hand).length ≤ hand.length := by
  rw [distinctNums]
  calc (dedupAdj (numsAsc hand)).length ≤ (numsAsc hand).length :=
        dedupAdj_length_le _
    _ = hand.length := numsAsc_length hand

theorem len5_shape {α : Type} {l : List α} (h : l.length = 5) :
    ∃ a b c d e, l = [a, b, c, d, e] := by
  rcases l with _ | ⟨a, _ | ⟨b, _ | ⟨c, _ | ⟨d, _ | ⟨e, rest⟩⟩⟩⟩⟩ <;>
    simp only [List.length_cons, List.length_nil] at h
  · omega
  · omega
  · omega
  · omega
  · omega
  · have hrest : rest = [] := List.length_eq_zero.mp (by omega)
    subst hrest
    exact ⟨a, b, c, d, e, rfl⟩

theorem sorted_eq_of_mem_iff {l₁ l₂ : List Nat}
    (h1 : l₁.Pairwise (· < ·)) (h2 : l₂.Pairwise (· < ·))
    (h : ∀ v, v ∈ l₁ ↔ v ∈ l₂) : l₁ = l₂ := by
  have hn1 : l₁.Nodup := h1.imp Nat.ne_of_lt
  have hn2 : l₂.Nodup := h2.imp Nat.ne_of_lt
  have hperm : List.Perm l₁ l₂ := (List.perm_ext_iff_of_nodup hn1 hn2).mpr h
  haveI : IsAntisymm Nat (· < ·) :=
    ⟨fun a b hab hba => absurd hab (Nat.lt_asymm hba)⟩
  exact List.eq_of_perm_of_sorted hperm h1 h2

theorem is_straight_len5 {hand : List Card} (h5 : hand.length = 5)
    (hst : is_straight hand = true) : (distinctNums hand).length = 5 := by
  have hle : (distinctNums hand).length ≤ 5 := h5 ▸ distinctNums_length_le hand
  rw [is_straight, Bool.or_eq_true] at hst
  rcases hst with hw | hdd
  · exact Nat.le_antisymm hle (win5_length hw)
  · rw [of_decide_eq_true hdd]
    rfl

theorem pairwise_lt_five {a b c d e : Nat}
    (h : List.Pairwise (· < ·) [a, b, c, d, e]) :
    a < b ∧ b < c ∧ c < d ∧ d < e := by
  rcases List.pairwise_cons.mp h with ⟨h1, h2⟩
  rcases List.pairwise_cons.mp h2 with ⟨h3, h4⟩
  rcases List.pairwise_cons.mp h4 with ⟨h5, h6⟩
  rcases List.pairwise_cons.mp h6 with ⟨h7, _⟩
  exact ⟨h1 b (by simp), h3 c (by simp), h5 d (by simp), h7 e (by simp)⟩

theorem pairwise_lt_five_of {a b c d e : Nat}
    (h1 : a < b) (h2 : b < c) (h3 : c < d) (h4 : d < e) :
    List.Pairwise (· < ·) [a, b, c, d, e] := by
  refine List.pairwise_cons.mpr ⟨?_, List.pairwise_cons.mpr ⟨?_,
    List.pairwise_cons.mpr ⟨?_, List.pairwise_cons.mpr ⟨?_, by simp⟩⟩⟩⟩ <;>
  · intro z hz
    simp only [List.mem_cons, List.not_mem_nil, or_false] at hz
    omega

/-- The straight test succeeds exactly when the distinct value set is five
consecutive integers or exactly `{2, 3, 4, 5, 14}`. -/
theorem is_straight_iff {hand : List Card} (h5 : hand.length = 5) :
    is_straight hand = true ↔
      ((∃ m, ∀ v, v ∈ handVals hand ↔
          (v = m ∨ v = m + 1 ∨ v = m + 2 ∨ v = m + 3 ∨ v = m + 4)) ∨
        (∀ v, v ∈ handVals hand ↔
          (v = 2 ∨ v = 3 ∨ v = 4 ∨ v = 5 ∨ v = 14))) := by
  have hpw := distinctNums_pairwise_lt hand
  have hmem : ∀ v, v ∈ distinctNums hand ↔ v ∈ handVals hand :=
    fun v => mem_distinctNums
  constructor
  · intro hst
    have hlen : (distinctNums hand).length = 5 := is_straight_len5 h5 hst
    obtain ⟨a, b, c, d, e, hdde⟩ := len5_shape hlen
    rw [is_straight, Bool.or_eq_true] at hst
    rw [hdde] at hpw
    obtain ⟨o1, o2, o3, o4⟩ := pairwise_lt_five hpw
    rcases hst with hw | hdd
    · rw [hdde] at hw
      have he : e = a + 4 := by
        simp only [win5, Bool.or_eq_true, beq_iff_eq] at hw
        rcases hw with h | h
        · exact h
        · cases h
      refine Or.inl ⟨a, fun v => ?_⟩
      rw [← hmem v, hdde]
      have hb : b = a + 1 := by omega
      have hc : c = a + 2 := by omega
      have hd : d = a + 3 := by omega
      subst hb hc hd he
      simp only [List.mem_cons, List.not_mem_nil, or_false]
    · have hdd5 : distinctNums hand = [2, 3, 4, 5, 14] := of_decide_eq_true hdd
      refine Or.inr fun v => ?_
      rw [← hmem v, hdd5]
      simp only [List.mem_cons, List.not_mem_nil, or_false]
  · intro hspec
    rcases hspec with ⟨m, hm⟩ | hm
    · have hdd5 : distinctNums hand = [m, m + 1, m + 2, m + 3, m + 4] := by
        refine sorted_eq_of_mem_iff hpw
          (pairwise_lt_five_of (by omega) (by omega) (by omega) (by omega))
          fun v => ?_
        rw [hmem v, hm v]
        simp only [List.mem_cons, List.not_mem_nil, or_false]
      rw [is_straight, hdd5, Bool.or_eq_true]
      left
      simp [win5]
    · have hdd5 : distinctNums hand = [2, 3, 4, 5, 14] := by
        refine sorted_eq_of_mem_iff hpw
          (pairwise_lt_five_of (by omega) (by omega) (by omega) (by omega))
          fun v => ?_
        rw [hmem v, hm v]
        simp only [List.mem_cons, List.not_mem_nil, or_false]
      rw [is_straight, hdd5, Bool.or_eq_true]
      right
      rfl

/-! ## The RoyalFlush branch on straights -/

theorem classify_length_ne_two {isF isS : Bool} {ranks : List Rank}
    {cv : List (Rank × Nat)} (h : cv.length ≠ 2) :
    classify isF isS ranks cv = classifyRest isF isS ranks cv := by
  unfold classify
  split
  · exact absurd rfl h
  · exact absurd rfl h
  · rfl

theorem nodup_ranks_of_straight {hand : List Card} (h5 : hand.length = 5)
    (hst : is_straight hand = true) : (ranksDesc hand).Nodup := by
  have hdd : (distinctNums hand).length = 5 := is_straight_len5 h5 hst
  have hna : (numsAsc hand).length = 5 := by rw [numsAsc_length, h5]
  have hnodup_nums : (numsAsc hand).Nodup :=
    dedupAdj_length_eq_nodup (numsAsc_pairwise_le hand) (by rw [hna]; exact hdd)
  have hmap : ((ranksDesc hand).map rank_value).Nodup :=
    ((sortBy_perm compareNat ((ranksDesc hand).map rank_value)).nodup_iff).mp
      hnodup_nums
  exact List.Nodup.of_map rank_value hmap

theorem countVec_length_of_nodup {hand : List Card}
    (hnd : (ranksDesc hand).Nodup) : (countVec hand).length = hand.length := by
  rw [countVec, sortBy_length, List.length_map, dedupAdj_of_nodup hnd,
    ranksDesc_length]

/-- Any 5-card flush that passes the straight test and holds an Ace is
classified `RoyalFlush` (source line 131; this arm precedes the
`StraightFlush` arm). -/
theorem royal_flush_general {hand : List Card} (h5 : hand.length = 5)
    (hf : is_flush hand = true) (hst : is_straight hand = true)
    (ha : Rank.Ace ∈ handRanks hand) :
    evaluate_hand hand = some .RoyalFlush := by
  have hnd := nodup_ranks_of_straight h5 hst
  have hcv : (countVec hand).length = 5 := by
    rw [countVec_length_of_nodup hnd, h5]
  have ha' : Rank.Ace ∈ ranksDesc hand := (ranksDesc_perm hand).mem_iff.mpr ha
  rw [evaluate_hand, classify_length_ne_two (by rw [hcv]; omega), classifyRest,
    hf, hst, decide_eq_true ha']
  rfl

/-! ## `evalAll` and `determine_winner` -/

theorem evalAll_isSome {l : List (Nat × List Card)}
    (h : ∀ p ∈ l, ∃ r, evaluate_hand p.2 = some r) :
    ∃ l', evalAll l = some l' := by
  induction l with
  | nil => exact ⟨[], rfl⟩
  | cons q rest ih =>
    obtain ⟨i, hd⟩ := q
    obtain ⟨r, hr⟩ := h (i, hd) (List.mem_cons_self _ _)
    obtain ⟨rs, hrs⟩ := ih fun p hp => h p (List.mem_cons_of_mem _ hp)
    exact ⟨(i, r) :: rs, by rw [evalAll, hr, hrs]⟩

theorem evalAll_cons_elim {i : Nat} {hd : List Card}
    {rest : List (Nat × List Card)} {l' : List (Nat × HandRank)}
    (h : evalAll ((i, hd) :: rest) = some l') :
    ∃ r rs, evaluate_hand hd = some r ∧ evalAll rest = some rs ∧
      l' = (i, r) :: rs := by
  rw [evalAll] at h
  rcases he : evaluate_hand hd with _ | r <;> rw [he] at h
  · cases h
  · rcases hrest : evalAll rest with _ | rs <;> rw [hrest] at h
    · cases h
    · exact ⟨r, rs, rfl, rfl, (Option.some.inj h).symm⟩

theorem evalAll_forward {l : List (Nat × List Card)}
    {l' : List (Nat × HandRank)} (h : evalAll l = some l') :
    ∀ p ∈ l, ∃ r, evaluate_hand p.2 = some r ∧ (p.1, r) ∈ l' := by
  induction l generalizing l' with
  | nil => intro p hp; cases hp
  | cons q rest ih =>
    obtain ⟨i, hd⟩ := q
    obtain ⟨r, rs, he, hrest, rfl⟩ := evalAll_cons_elim h
    intro p hp
    rcases List.mem_cons.mp hp with rfl | hp'
    · exact ⟨r, he, List.mem_cons_self _ _⟩
    · obtain ⟨r', hr1, hr2⟩ := ih hrest p hp'
      exact ⟨r', hr1, List.mem_cons_of_mem _ hr2⟩

theorem evalAll_backward {l : List (Nat × List Card)}
    {l' : List (Nat × HandRank)} (h : evalAll l = some l') :
    ∀ q ∈ l', ∃ hd, (q.1, hd) ∈ l ∧ evaluate_hand hd = some q.2 := by
  induction l generalizing l' with
  | nil =>
    intro q hq
    cases h
    cases hq
  | cons p rest ih =>
    obtain ⟨i, hd⟩ := p
    obtain ⟨r, rs, he, hrest, rfl⟩ := evalAll_cons_elim h
    intro q hq
    rcases List.mem_cons.mp hq with rfl | hq'
    · exact ⟨hd, List.mem_cons_self _ _, he⟩
    · obtain ⟨hd', h1, h2⟩ := ih hrest q hq'
      exact ⟨hd', List.mem_cons_of_mem _ h1, h2⟩

theorem evalAll_ne_nil {l : List (Nat × List Card)}
    {l' : List (Nat × HandRank)} (h : evalAll l = some l') (hne : l ≠ []) :
    l' ≠ [] := by
  cases l with
  | nil => exact absurd rfl hne
  | cons p rest =>
    obtain ⟨i, hd⟩ := p
    obtain ⟨r, rs, _, _, rfl⟩ := evalAll_cons_elim h
    intro hnil
    cases hnil

theorem evalAll_pairwise {l : List (Nat × List Card)}
    {l' : List (Nat × HandRank)} (h : evalAll l = some l')
    (hpw : l.Pairwise (fun a b => a.1 < b.1)) :
    l'.Pairwise (fun a b => a.1 < b.1) := by
  induction l generalizing l' with
  | nil =>
    cases h
    exact List.Pairwise.nil
  | cons p rest ih =>
    obtain ⟨i, hd⟩ := p
    obtain ⟨r, rs, he, hrest, rfl⟩ := evalAll_cons_elim h
    rcases List.pairwise_cons.mp hpw with ⟨hp1, hp2⟩
    refine List.pairwise_cons.mpr ⟨?_, ih hrest hp2⟩
    intro q hq
    obtain ⟨hd', h1, _⟩ := evalAll_backward hrest q hq
    exact hp1 (q.1, hd') h1

/-- The winner returned by `determine_winner` on nonempty 5-card hands: an
in-bounds index whose evaluation is maximal, and minimal among the indices
whose evaluations tie with it. -/
theorem winner_spec {hands : List (List Card)} (hne : hands ≠ [])
    (h5 : ∀ h ∈ hands, h.length = 5) :
    ∃ i, ∃ (hi : i < hands.length), ∃ ri,
      determine_winner hands = some i ∧
      evaluate_hand (hands.get ⟨i, hi⟩) = some ri ∧
      (∀ j, ∀ (hj : j < hands.length), ∃ rj,
        evaluate_hand (hands.get ⟨j, hj⟩) = some rj ∧
        HandRank.cmp rj ri ≠ .gt) ∧
      (∀ j, ∀ (hj : j < hands.length), ∀ rj,
        evaluate_hand (hands.get ⟨j, hj⟩) = some rj →
        HandRank.cmp rj ri = .eq → i ≤ j) := by
  have hall : ∀ p ∈ enumF 0 hands, ∃ r, evaluate_hand p.2 = some r := by
    rintro ⟨i, hd⟩ hp
    obtain ⟨_, _, h3⟩ := mem_enumF.mp hp
    have hmem : hd ∈ hands := List.getElem?_mem h3
    have hlen := h5 hd hmem
    refine evaluate_total fun hnil => ?_
    have hnil2 : hd = [] := hnil
    rw [hnil2] at hlen
    exact absurd hlen (by decide)
  obtain ⟨ranked, hranked⟩ := evalAll_isSome hall
  have hrne : ranked ≠ [] := by
    refine evalAll_ne_nil hranked fun h0 => hne ?_
    have := enumF_length 0 hands
    rw [h0] at this
    exact List.length_eq_zero.mp this.symm
  obtain ⟨m, hm⟩ : ∃ m, firstBest dwCmp ranked = some m := by
    rcases hf : firstBest dwCmp ranked with _ | m
    · exact absurd (firstBest_eq_none.mp hf) hrne
    · exact ⟨m, rfl⟩
  have hdw : determine_winner hands = some m.1 := by
    rw [determine_winner, hranked]
    dsimp only
    rcases hs : sortBy dwCmp ranked with _ | ⟨m0, rest⟩
    · exfalso
      have hh := sortBy_head dwCmp ranked
      rw [hs, hm] at hh
      cases hh
    · have hh := sortBy_head dwCmp ranked
      rw [hs, hm] at hh
      simp only [List.head?_cons] at hh
      dsimp only
      rw [Option.some.inj hh]
  obtain ⟨hd, hin, hev⟩ := evalAll_backward hranked m (firstBest_mem hm)
  obtain ⟨-, h2, h3⟩ := mem_enumF.mp hin
  have hi : m.1 < hands.length := by simpa using h2
  have hget : hands.get ⟨m.1, hi⟩ = hd := by
    simp only [Nat.sub_zero] at h3
    rw [List.getElem?_eq_getElem hi] at h3
    rw [List.get_eq_getElem]
    exact Option.some.inj h3
  have hpj : ∀ j, ∀ (hj : j < hands.length),
      (j, hands.get ⟨j, hj⟩) ∈ enumF 0 hands := by
    intro j hj
    refine mem_enumF.mpr ⟨Nat.zero_le _, by simpa using hj, ?_⟩
    simp only [Nat.sub_zero]
    rw [List.getElem?_eq_getElem hj, List.get_eq_getElem]
  refine ⟨m.1, hi, m.2, hdw, by rw [hget]; exact hev, ?_, ?_⟩
  · intro j hj
    obtain ⟨rj, hrj, hrjmem⟩ := evalAll_forward hranked _ (hpj j hj)
    refine ⟨rj, hrj, ?_⟩
    exact firstBest_le dwCmp_self dwCmp_swap
      (fun hab hbd => dwCmp_le_trans hab hbd) hm (j, rj) hrjmem
  · intro j hj rj hevj htie
    obtain ⟨rj', hrj', hrjmem⟩ := evalAll_forward hranked _ (hpj j hj)
    rw [hevj] at hrj'
    have he : rj' = rj := (Option.some.inj hrj').symm
    rw [he] at hrjmem
    have hpwr : ranked.Pairwise (fun a b => a.1 < b.1) :=
      evalAll_pairwise hranked (enumF_pairwise_idx 0 hands)
    have htie' : dwCmp m (j, rj) = .eq := htie
    rcases firstBest_first_of_ties dwCmp_swap hpwr hm (j, rj) hrjmem htie' with
      heqm | hlt
    · exact Nat.le_of_eq (congrArg Prod.fst heqm)
    · exact Nat.le_of_lt hlt

/-! ## The `HandRank` order against the specified order -/

/-- The data-model invariant on ranks: a `Number` payload lies in `[2, 10]`. -/
def validRank : Rank → Prop
  | .Number n => 2 ≤ n ∧ n ≤ 10
  | _ => True

instance validRank.dec : ∀ r, Decidable (validRank r)
  | .Number n => inferInstanceAs (Decidable (2 ≤ n ∧ n ≤ 10))
  | .Jack => .isTrue trivial
  | .Queen => .isTrue trivial
  | .King => .isTrue trivial
  | .Ace => .isTrue trivial

/-- All payload ranks of a `HandRank` satisfy the data-model invariant. -/
def HandRank.valid (a : HandRank) : Prop := ∀ r ∈ a.hpay, validRank r

instance : ∀ a : HandRank, Decidable a.valid := fun a =>
  List.decidableBAll validRank a.hpay

/-- Comparison of ranks by numeric value, the spec's tie-break order. -/
def rankValCmp (a b : Rank) : Ordering :=
  compareNat (rank_value a) (rank_value b)

/-- The spec's same-category secondary key: the payload ranks compared
lexicographically by numeric value. -/
def specSameCatCmp (a b : HandRank) : Ordering :=
  cmpList rankValCmp a.hpay b.hpay

theorem rank_cmp_eq_val {a b : Rank} (ha : validRank a) (hb : validRank b) :
    Rank.cmp a b = rankValCmp a b := by
  cases a <;> cases b <;> simp only [validRank] at ha hb <;>
    first
      | rfl
      | decide
      | exact Eq.trans rfl
          ((compareNat_eq_lt.mpr (by simp only [rank_value]; omega)).symm)
      | exact Eq.trans rfl
          ((compareNat_eq_gt.mpr (by simp only [rank_value]; omega)).symm)

theorem handRank_cmp_same_cat {a b : HandRank} (ha : a.valid) (hb : b.valid)
    (hc : a.ctorIdx = b.ctorIdx) :
    HandRank.cmp a b = specSameCatCmp a b := by
  rw [HandRank.cmp, hc, compareNat_self]
  show cmpList Rank.cmp a.hpay b.hpay = specSameCatCmp a b
  exact cmpList_congr fun x hx y hy => rank_cmp_eq_val (ha x hx) (hb y hy)

theorem handRank_cmp_cross {a b : HandRank} (h : a.ctorIdx < b.ctorIdx) :
    HandRank.cmp a b = .lt := by
  rw [HandRank.cmp]
  exact then_compareNat_eq_lt.mpr (Or.inl h)

theorem handRank_le_antisymm {a b : HandRank}
    (hab : HandRank.cmp a b ≠ .gt) (hba : HandRank.cmp b a ≠ .gt) : a = b := by
  rcases h : HandRank.cmp a b with _ | _ | _
  · exfalso
    apply hba
    rw [← HandRank.cmp_swap a b, h]
    rfl
  · exact HandRank.cmp_eq_eq.mp h
  · exact absurd h hab

/-! ## Concrete hands used as test inputs -/

/-- A low-ace straight that is not a flush: A♠ 2♥ 3♥ 4♥ 5♥. -/
def lowAceMixed : List Card :=
  [⟨.Spades, .Ace⟩, ⟨.Hearts, .Number 2⟩, ⟨.Hearts, .Number 3⟩,
   ⟨.Hearts, .Number 4⟩, ⟨.Hearts, .Number 5⟩]

/-- The low-ace straight flush A♥ 2♥ 3♥ 4♥ 5♥. -/
def lowAceSuited : List Card :=
  [⟨.Hearts, .Ace⟩, ⟨.Hearts, .Number 2⟩, ⟨.Hearts, .Number 3⟩,
   ⟨.Hearts, .Number 4⟩, ⟨.Hearts, .Number 5⟩]

/-- A pair of Kings. -/
def pairKingsHand : List Card :=
  [⟨.Spades, .King⟩, ⟨.Hearts, .King⟩, ⟨.Diamonds, .Number 2⟩,
   ⟨.Clubs, .Number 5⟩, ⟨.Spades, .Number 9⟩]

/-- The pair of Kings reordered. -/
def pairKingsShuffled : List Card :=
  [⟨.Spades, .Number 9⟩, ⟨.Clubs, .Number 5⟩, ⟨.Diamonds, .Number 2⟩,
   ⟨.Hearts, .King⟩, ⟨.Spades, .King⟩]

/-- A heart flush (no straight, no pair). -/
def flushHand : List Card :=
  [⟨.Hearts, .Number 2⟩, ⟨.Hearts, .Number 5⟩, ⟨.Hearts, .Number 7⟩,
   ⟨.Hearts, .Number 9⟩, ⟨.Hearts, .Jack⟩]

/-- The same ranks as `flushHand` but in spades. -/
def flushSpadesHand : List Card :=
  [⟨.Spades, .Number 2⟩, ⟨.Spades, .Number 5⟩, ⟨.Spades, .Number 7⟩,
   ⟨.Spades, .Number 9⟩, ⟨.Spades, .Jack⟩]

/-- A nine-high straight across suits. -/
def straightHand : List Card :=
  [⟨.Spades, .Number 5⟩, ⟨.Hearts, .Number 6⟩, ⟨.Diamonds, .Number 7⟩,
   ⟨.Clubs, .Number 8⟩, ⟨.Spades, .Number 9⟩]

/-- A jack-high nothing hand. -/
def highCardHand : List Card :=
  [⟨.Spades, .Number 2⟩, ⟨.Diamonds, .Number 5⟩, ⟨.Clubs, .Number 7⟩,
   ⟨.Hearts, .Number 9⟩, ⟨.Spades, .Jack⟩]

/-- The guard of `deal_hands` fires before the shuffle and before any
mutation: the reported numbers are the requested and available counts and
the deck is returned unchanged. -/
theorem deal_hands_guard (shuffle : List Card → List Card) (deck : List Card)
    (cph nh : Nat) (h : cph * nh > deck.length) :
    deal_hands shuffle deck cph nh =
      .insufficient (cph * nh) deck.length deck := by
  unfold deal_hands
  dsimp only
  rw [if_pos h]

/-! ## The claims -/

/-- C1: the spec claims that a 5-card hand with ranks {Ace, 2, 3, 4, 5} and
mixed suits evaluates to `Straight(5)` (five-high).  The code sorts the ranks
descending and reports `ranks[0]` as the straight's high card, which for this
hand is the Ace: it returns `Straight(Ace)`, contradicting the spec's
"five-high, not ace-high". -/
theorem C1_low_ace_straight_reports_ace :
    evaluate_hand lowAceMixed = some (.Straight .Ace) ∧
    some (HandRank.Straight .Ace) ≠ some (HandRank.Straight (.Number 5)) :=
  ⟨by decide, by decide⟩

/-- C2: every 5-card hand that is a flush, passes the straight test and
contains an Ace is classified `RoyalFlush` (the hypotheses force five
distinct ranks, so the four-of-a-kind and full-house arms cannot match);
in particular the 5-high straight flush A-2-3-4-5 of one suit is
`RoyalFlush`, not `StraightFlush(5)`, because the royal arm precedes the
generic straight-flush arm. -/
theorem C2_royal_flush_before_straight_flush :
    (∀ hand : List Card, hand.length = 5 → is_flush hand = true →
      is_straight hand = true → Rank.Ace ∈ handRanks hand →
      evaluate_hand hand = some .RoyalFlush) ∧
    evaluate_hand lowAceSuited = some .RoyalFlush ∧
    evaluate_hand lowAceSuited ≠ some (.StraightFlush (.Number 5)) :=
  ⟨fun _ h5 hf hs ha => royal_flush_general h5 hf hs ha, by decide, by decide⟩

theorem C2_witness :
    lowAceSuited.length = 5 ∧ is_flush lowAceSuited = true ∧
    is_straight lowAceSuited = true ∧ Rank.Ace ∈ handRanks lowAceSuited ∧
    evaluate_hand lowAceSuited = some .RoyalFlush :=
  ⟨by decide, by decide, by decide, by decide,
    C2_royal_flush_before_straight_flush.1 lowAceSuited (by decide) (by decide)
      (by decide) (by decide)⟩

/-- C3: the derived comparison on `HandRank` is a total order (transitive,
antisymmetric, total); between different categories the ordinal in
declaration order `HighCard < OnePair < TwoPair < ThreeOfAKind < Straight <
Flush < FullHouse < FourOfAKind < StraightFlush < RoyalFlush` alone decides
(payloads ignored); between equal categories (with the data-model rank
invariant) it compares the payload ranks lexicographically by numeric value;
e.g. every ThreeOfAKind beats every TwoPair and
`FullHouse(King, 2) > FullHouse(Queen, Ace)`. -/
theorem C3_hand_rank_total_order :
    (∀ a b d : HandRank, HandRank.cmp a b ≠ .gt → HandRank.cmp b d ≠ .gt →
      HandRank.cmp a d ≠ .gt) ∧
    (∀ a b : HandRank, HandRank.cmp a b ≠ .gt → HandRank.cmp b a ≠ .gt →
      a = b) ∧
    (∀ a b : HandRank, HandRank.cmp a b ≠ .gt ∨ HandRank.cmp b a ≠ .gt) ∧
    (∀ a b : HandRank, a.ctorIdx < b.ctorIdx → HandRank.cmp a b = .lt) ∧
    (∀ a b : HandRank, a.valid → b.valid → a.ctorIdx = b.ctorIdx →
      HandRank.cmp a b = specSameCatCmp a b) ∧
    HandRank.cmp (.ThreeOfAKind (.Number 2)) (.TwoPair .Ace .King) = .gt ∧
    HandRank.cmp (.FullHouse .King (.Number 2)) (.FullHouse .Queen .Ace) = .gt :=
  ⟨fun _ _ _ hab hbd => HandRank.cmp_le_trans hab hbd,
    fun _ _ hab hba => handRank_le_antisymm hab hba,
    fun a b => cmp_total_of HandRank.cmp_swap a b,
    fun _ _ h => handRank_cmp_cross h,
    fun _ _ ha hb hc => handRank_cmp_same_cat ha hb hc,
    by decide, by decide⟩

theorem C3_witness :
    HandRank.valid (.OnePair .King) ∧ HandRank.valid (.OnePair (.Number 9)) ∧
    HandRank.cmp (.OnePair .King) (.OnePair (.Number 9)) =
      specSameCatCmp (.OnePair .King) (.OnePair (.Number 9)) :=
  ⟨by decide, by decide,
    C3_hand_rank_total_order.2.2.2.2.1 _ _ (by decide) (by decide) rfl⟩

/-- C4: on 5-card hands the straight test succeeds exactly when the set of
distinct numeric rank values is five consecutive integers or exactly
`{2, 3, 4, 5, 14}` (duplicate ranks collapse to fewer than five distinct
values and defeat both checks). -/
theorem C4_straight_test_characterisation :
    ∀ hand : List Card, hand.length = 5 →
      (is_straight hand = true ↔
        ((∃ m, ∀ v, v ∈ handVals hand ↔
            (v = m ∨ v = m + 1 ∨ v = m + 2 ∨ v = m + 3 ∨ v = m + 4)) ∨
          (∀ v, v ∈ handVals hand ↔
            (v = 2 ∨ v = 3 ∨ v = 4 ∨ v = 5 ∨ v = 14)))) :=
  fun _ h5 => is_straight_iff h5

theorem C4_witness :
    straightHand.length = 5 ∧
    (is_straight straightHand = true ↔
      ((∃ m, ∀ v, v ∈ handVals straightHand ↔
          (v = m ∨ v = m + 1 ∨ v = m + 2 ∨ v = m + 3 ∨ v = m + 4)) ∨
        (∀ v, v ∈ handVals straightHand ↔
          (v = 2 ∨ v = 3 ∨ v = 4 ∨ v = 5 ∨ v = 14)))) :=
  ⟨by decide, C4_straight_test_characterisation straightHand (by decide)⟩

/-- C5: evaluation is total on 5-card hands: every internal partial
operation succeeds and exactly one `HandRank` is returned (`evaluate_hand`
is `some` — the `none` results model the panic sites). -/
theorem C5_evaluate_total_on_five_cards :
    ∀ hand : List Card, hand.length = 5 → ∃ r, evaluate_hand hand = some r :=
  fun _ h5 =>
    evaluate_total fun hnil => by
      rw [hnil] at h5
      exact absurd h5 (by decide)

theorem C5_witness :
    pairKingsHand.length = 5 ∧ ∃ r, evaluate_hand pairKingsHand = some r :=
  ⟨by decide, C5_evaluate_total_on_five_cards pairKingsHand (by decide)⟩

/-- C6: on a nonempty list of 5-card hands `determine_winner` returns an
in-bounds index whose evaluation is maximal under the `HandRank` order; on
[pair of Kings, flush, straight, high card] it returns the index of the
flush. -/
theorem C6_winner_is_maximal :
    (∀ hands : List (List Card), hands ≠ [] → (∀ h ∈ hands, h.length = 5) →
      ∃ i, ∃ (hi : i < hands.length), ∃ ri,
        determine_winner hands = some i ∧
        evaluate_hand (hands.get ⟨i, hi⟩) = some ri ∧
        ∀ j, ∀ (hj : j < hands.length), ∃ rj,
          evaluate_hand (hands.get ⟨j, hj⟩) = some rj ∧
          HandRank.cmp rj ri ≠ .gt) ∧
    determine_winner [pairKingsHand, flushHand, straightHand, highCardHand] =
      some 1 := by
  constructor
  · intro hands hne h5
    obtain ⟨i, hi, ri, h1, h2, h3, -⟩ := winner_spec hne h5
    exact ⟨i, hi, ri, h1, h2, h3⟩
  · decide

theorem C6_witness :
    ∃ i, ∃ (hi : i <
        [pairKingsHand, flushHand, straightHand, highCardHand].length), ∃ ri,
      determine_winner [pairKingsHand, flushHand, straightHand, highCardHand] =
        some i ∧
      evaluate_hand
        ([pairKingsHand, flushHand, straightHand, highCardHand].get
          ⟨i, hi⟩) = some ri ∧
      ∀ j, ∀ (hj : j <
          [pairKingsHand, flushHand, straightHand, highCardHand].length),
        ∃ rj, evaluate_hand
            ([pairKingsHand, flushHand, straightHand, highCardHand].get
              ⟨j, hj⟩) = some rj ∧
          HandRank.cmp rj ri ≠ .gt :=
  C6_winner_is_maximal.1 _ (by decide) (by decide)

/-- C7: the spec claims winner resolution on zero hands fails with an
explicit `EmptyInput` error.  The source has no such guard: it evaluates
`ranked_hands[0]` on the empty vector and panics with an index-out-of-bounds
(modelled by `none`). -/
theorem C7_empty_input_panics : determine_winner [] = none := rfl

/-- C8: when more cards are requested than the deck holds, the explicit
guard fires first — before the shuffle and before any mutation — reporting
the requested and available counts with the deck unchanged; but it does so
by `panic!`, not by returning a recoverable error.  At the spec's own
failing input (14 cards × 4 hands from the 52-card deck) the outcome is the
guard's panic carrying 56, 52 and the untouched deck. -/
theorem C8_insufficient_guard_panics :
    deal_hands id generate_deck 14 4 = .insufficient 56 52 generate_deck := by
  decide

/-- C9: evaluation only depends on the multiset of cards: permuting a hand
does not change its classification. -/
theorem C9_evaluate_perm_invariant :
    ∀ hand hand' : List Card, hand.length = 5 → List.Perm hand hand' →
      evaluate_hand hand = evaluate_hand hand' :=
  fun _ _ _ hp => evaluate_perm hp

theorem C9_witness :
    pairKingsHand.length = 5 ∧ List.Perm pairKingsHand pairKingsShuffled ∧
    evaluate_hand pairKingsHand = evaluate_hand pairKingsShuffled :=
  ⟨by decide, by decide,
    C9_evaluate_perm_invariant _ _ (by decide) (by decide)⟩

/-- C10: on a nonempty list of 5-card hands the returned winner is maximal
and, among the indices whose evaluations tie with the winner's `HandRank`
(in particular all tied maximal hands), it is the lowest index: the stable
descending sort keeps the original relative order of equal elements and the
head is taken.  The return type carries a single index, so a tie is not a
distinct outcome. -/
theorem C10_tie_returns_lowest_index :
    ∀ hands : List (List Card), hands ≠ [] → (∀ h ∈ hands, h.length = 5) →
      ∃ i, ∃ (hi : i < hands.length), ∃ ri,
        determine_winner hands = some i ∧
        evaluate_hand (hands.get ⟨i, hi⟩) = some ri ∧
        (∀ j, ∀ (hj : j < hands.length), ∃ rj,
          evaluate_hand (hands.get ⟨j, hj⟩) = some rj ∧
          HandRank.cmp rj ri ≠ .gt) ∧
        (∀ j, ∀ (hj : j < hands.length), ∀ rj,
          evaluate_hand (hands.get ⟨j, hj⟩) = some rj →
          HandRank.cmp rj ri = .eq → i ≤ j) :=
  fun _ hne h5 => winner_spec hne h5

theorem C10_witness :
    ∃ i, ∃ (hi : i < [flushHand, flushSpadesHand, pairKingsHand].length), ∃ ri,
      determine_winner [flushHand, flushSpadesHand, pairKingsHand] = some i ∧
      evaluate_hand ([flushHand, flushSpadesHand, pairKingsHand].get ⟨i, hi⟩) =
        some ri ∧
      (∀ j, ∀ (hj : j < [flushHand, flushSpadesHand, pairKingsHand].length),
        ∃ rj, evaluate_hand
            ([flushHand, flushSpadesHand, pairKingsHand].get ⟨j, hj⟩) =
            some rj ∧ HandRank.cmp rj ri ≠ .gt) ∧
      (∀ j, ∀ (hj : j < [flushHand, flushSpadesHand, pairKingsHand].length),
        ∀ rj, evaluate_hand
            ([flushHand, flushSpadesHand, pairKingsHand].get ⟨j, hj⟩) =
            some rj →
          HandRank.cmp rj ri = .eq → i ≤ j) :=
  C10_tie_returns_lowest_index _ (by decide) (by decide)
